import Mathlib

/-!
Shallow embedding of `src/marketing_strategy_picker.py` (class
`MarketingStrategyPicker`): the funnel-recommendation engine.

A strategy record is a parsed JSON object with fields `name`, `description`,
`types` (list of labels), optional `effort_hours` and optional `impact`.
The stage catalog `FUNNEL_STAGES` is the class-level dict of the source.
Python dicts preserve insertion order, so the catalog is a list of
key/info pairs and the report is an association list built with
Python-dict insertion semantics (`dictInsert`).

`list.sort(key=..., reverse=True)` in Python is a stable sort; with
`reverse=True` elements with equal keys still keep their original relative
order.  It is modelled by `List.insertionSort r` with
`r a b := key b ≤ key a`, which is exactly the stable descending sort
(Mathlib's insertion sort inserts each earlier element in front of
equal-keyed later elements).
-/

structure Strategy where
  name : String
  description : String
  types : List String
  effort_hours : Option Nat
  impact : Option String
deriving DecidableEq

structure StageInfo where
  name : String
  description : String
  types : List String
  order : Nat
deriving DecidableEq

/-- The class attribute `FUNNEL_STAGES` of `MarketingStrategyPicker`,
in dict insertion order. -/
def FUNNEL_STAGES : List (String × StageInfo) :=
  [ ("awareness",
      ⟨"Осведомленность", "Привлечение внимания к продукту/бренду", ["Awareness"], 1⟩),
    ("acquisition",
      ⟨"Привлечение", "Привлечение трафика на сайт/приложение", ["Acquisition"], 2⟩),
    ("activation",
      ⟨"Активация", "Вовлечение пользователей, регистрация, первый опыт", ["Activation"], 3⟩),
    ("revenue",
      ⟨"Доход", "Совершение первой покупки", ["Revenue"], 4⟩),
    ("retention",
      ⟨"Удержание", "Повторные покупки, лояльность клиентов", ["Retention"], 5⟩),
    ("referral",
      ⟨"Рефералы", "Рекомендации, сарафанное радио", ["Referral"], 6⟩) ]

/-- `stage_key in FUNNEL_STAGES` / `FUNNEL_STAGES[stage_key]` as one lookup. -/
def findStage (stage_key : String) : Option StageInfo :=
  (FUNNEL_STAGES.find? (fun p => p.1 == stage_key)).map (·.2)

/-- `_group_strategies_by_type`, viewed at one label: the bucket
`strategies_by_type[t]`.  The Python loop appends `strategy` to
`grouped[strategy_type]` once per occurrence of the label in
`strategy['types']`, in record order, which this reproduces (a label
absent from every record simply has an empty bucket, matching the
membership test on the defaultdict). -/
def strategies_by_type (strategies : List Strategy) (t : String) : List Strategy :=
  (strategies.map (fun s => (s.types.filter (fun x => x == t)).map (fun _ => s))).flatten

/-- Step 2 of `get_strategies_for_stage`: `strategies.extend(...)` for each
label of the stage, in label-declaration order.  (The `if strategy_type in
self.strategies_by_type` guard of the source only skips extending by an
empty bucket, which is the identity.) -/
def stage_collected (strategies : List Strategy) (stage_info : StageInfo) : List Strategy :=
  (stage_info.types.map (fun t => strategies_by_type strategies t)).flatten

/-- The dedup loop of `get_strategies_for_stage`: `seen_names` starts empty,
a record is appended iff its name has not been seen. -/
def dedup_by_name (seen : List String) : List Strategy → List Strategy
  | [] => []
  | s :: rest =>
    if s.name ∈ seen then dedup_by_name seen rest
    else s :: dedup_by_name (s.name :: seen) rest

/-- The sort key `lambda x: x.get('impact', '')`. -/
def impactKey (s : Strategy) : String := s.impact.getD ""

/-- Python's `<=` on strings: lexicographic comparison of the code-point
sequences. -/
def charListLe : List Char → List Char → Bool
  | [], _ => true
  | _ :: _, [] => false
  | a :: as, b :: bs =>
    if a.toNat < b.toNat then true
    else if b.toNat < a.toNat then false
    else charListLe as bs

def pyLe (a b : String) : Bool := charListLe a.data b.data

theorem charListLe_refl : ∀ as : List Char, charListLe as as = true
  | [] => rfl
  | a :: as => by simp [charListLe, charListLe_refl as]

theorem charListLe_total : ∀ as bs : List Char,
    charListLe as bs = true ∨ charListLe bs as = true
  | [], _ => Or.inl rfl
  | _ :: _, [] => Or.inr rfl
  | a :: as, b :: bs => by
    simp only [charListLe]
    rcases Nat.lt_trichotomy a.toNat b.toNat with h | h | h
    · left; simp [h]
    · have h' : ¬ a.toNat < b.toNat := by omega
      have h'' : ¬ b.toNat < a.toNat := by omega
      simpa [h', h''] using charListLe_total as bs
    · right; simp [h]

theorem charListLe_trans : ∀ as bs cs : List Char,
    charListLe as bs = true → charListLe bs cs = true → charListLe as cs = true
  | [], _, _ => by intro _ _; rfl
  | _ :: _, [], _ => by intro h _; simp [charListLe] at h
  | _ :: _, _ :: _, [] => by intro _ h; simp [charListLe] at h
  | a :: as, b :: bs, c :: cs => by
    intro h1 h2
    simp only [charListLe] at h1 h2 ⊢
    rcases Nat.lt_trichotomy a.toNat b.toNat with hab | hab | hab <;>
      rcases Nat.lt_trichotomy b.toNat c.toNat with hbc | hbc | hbc
    · simp [show a.toNat < c.toNat by omega]
    · simp [show a.toNat < c.toNat by omega]
    · simp [show ¬ b.toNat < c.toNat by omega, show c.toNat < b.toNat by omega] at h2
    · simp [show a.toNat < c.toNat by omega]
    · simp only [show ¬ a.toNat < b.toNat by omega,
        show ¬ b.toNat < a.toNat by omega, if_neg, ite_false] at h1
      simp only [show ¬ b.toNat < c.toNat by omega,
        show ¬ c.toNat < b.toNat by omega, if_neg, ite_false] at h2
      simp [show ¬ a.toNat < c.toNat by omega, show ¬ c.toNat < a.toNat by omega,
        charListLe_trans as bs cs h1 h2]
    · simp [show ¬ b.toNat < c.toNat by omega, show c.toNat < b.toNat by omega] at h2
    · simp [show ¬ a.toNat < b.toNat by omega, show b.toNat < a.toNat by omega] at h1
    · simp [show ¬ a.toNat < b.toNat by omega, show b.toNat < a.toNat by omega] at h1
    · simp [show ¬ a.toNat < b.toNat by omega, show b.toNat < a.toNat by omega] at h1

/-- The comparison used to model
`unique_strategies.sort(key=lambda x: x.get('impact', ''), reverse=True)`:
stable descending order on the impact key. -/
def impactGE (a b : Strategy) : Prop := pyLe (impactKey b) (impactKey a) = true

instance : DecidableRel impactGE := fun a b =>
  inferInstanceAs (Decidable (_ = true))

instance : IsTotal Strategy impactGE :=
  ⟨fun a b => charListLe_total (impactKey b).data (impactKey a).data⟩

instance : IsTrans Strategy impactGE :=
  ⟨fun _ _ _ h1 h2 => charListLe_trans _ _ _ h2 h1⟩

def sort_by_impact (l : List Strategy) : List Strategy :=
  l.insertionSort impactGE

/-- The Python slice `lst[:limit]` for an arbitrary integer `limit`:
nonnegative limits take a prefix, negative limits drop the last `|limit|`
entries (clamped at the empty list). -/
def pySlice (l : List Strategy) (limit : Int) : List Strategy :=
  if 0 ≤ limit then l.take limit.toNat
  else l.take (l.length - (-limit).toNat)

/-- The deduplicated per-stage bucket (`unique_strategies` before sorting). -/
def stage_unique (strategies : List Strategy) (stage_info : StageInfo) : List Strategy :=
  dedup_by_name [] (stage_collected strategies stage_info)

/-- `unique_strategies` after the in-place sort. -/
def stage_sorted (strategies : List Strategy) (stage_info : StageInfo) : List Strategy :=
  sort_by_impact (stage_unique strategies stage_info)

/-- `MarketingStrategyPicker.get_strategies_for_stage`. -/
def get_strategies_for_stage (strategies : List Strategy) (stage_key : String)
    (limit : Int) : List Strategy :=
  match findStage stage_key with
  | none => []
  | some stage_info => pySlice (stage_sorted strategies stage_info) limit

/-- One value of the `recommendations` dict built by
`get_funnel_recommendations`. -/
structure StageRecommendation where
  stage_name : String
  description : String
  strategies : List Strategy
  count : Nat
deriving DecidableEq

/-- Python-dict insertion on an association list: assigning to an existing
key overwrites the value in place, a new key is appended at the end. -/
def dictInsert (d : List (String × StageRecommendation)) (k : String)
    (v : StageRecommendation) : List (String × StageRecommendation) :=
  if d.any (fun p => p.1 == k) then
    d.map (fun p => if p.1 == k then (k, v) else p)
  else d ++ [(k, v)]

/-- The sort key `lambda x: self.FUNNEL_STAGES[x]['order']` (total on the
keys actually sorted, which are all catalog keys). -/
def stageOrder (k : String) : Nat := ((findStage k).map (·.order)).getD 0

def stageOrderLE (a b : String) : Prop := stageOrder a ≤ stageOrder b

instance : DecidableRel stageOrderLE := fun a b =>
  inferInstanceAs (Decidable (stageOrder a ≤ stageOrder b))

instance : IsTotal String stageOrderLE := ⟨fun a b => le_total (stageOrder a) (stageOrder b)⟩

instance : IsTrans String stageOrderLE := ⟨fun _ _ _ => le_trans⟩

/-- The body of the `for stage_key in sorted_stages` loop of
`get_funnel_recommendations`: one dict assignment
`recommendations[stage_key] = {...}`.  (`findStage` never returns `none`
here because the keys were filtered; the `none` branch is a no-op.) -/
def report_step (strategies : List Strategy) (strategies_per_stage : Int)
    (acc : List (String × StageRecommendation)) (stage_key : String) :
    List (String × StageRecommendation) :=
  match findStage stage_key with
  | none => acc
  | some stage_info =>
      let strats := get_strategies_for_stage strategies stage_key strategies_per_stage
      dictInsert acc stage_key ⟨stage_info.name, stage_info.description, strats, strats.length⟩

/-- `MarketingStrategyPicker.get_funnel_recommendations`.  `none` for
`selected_stages` is Python's `None` default (all catalog keys); the
result is the `recommendations` dict in its insertion order. -/
def get_funnel_recommendations (strategies : List Strategy)
    (selected_stages : Option (List String)) (strategies_per_stage : Int) :
    List (String × StageRecommendation) :=
  let sel := selected_stages.getD (FUNNEL_STAGES.map (·.1))
  let sorted_stages :=
    (sel.filter (fun k => (findStage k).isSome)).insertionSort stageOrderLE
  sorted_stages.foldl (report_step strategies strategies_per_stage) []

/-! ### Basic facts about the pipeline stages -/

theorem get_strategies_eq_slice (strategies : List Strategy) (stage_key : String)
    (limit : Int) (stage_info : StageInfo) (h : findStage stage_key = some stage_info) :
    get_strategies_for_stage strategies stage_key limit
      = pySlice (stage_sorted strategies stage_info) limit := by
  simp [get_strategies_for_stage, h]

theorem get_strategies_of_not_found (strategies : List Strategy) (stage_key : String)
    (limit : Int) (h : findStage stage_key = none) :
    get_strategies_for_stage strategies stage_key limit = [] := by
  simp [get_strategies_for_stage, h]

theorem pySlice_sublist (l : List Strategy) (limit : Int) :
    List.Sublist (pySlice l limit) l := by
  unfold pySlice
  split <;> exact List.take_sublist _ _

theorem sort_by_impact_perm (l : List Strategy) : (sort_by_impact l).Perm l :=
  List.perm_insertionSort impactGE l

/-- Every record kept by the dedup loop has an unseen name and is the first
record of the input carrying that name. -/
theorem dedup_mem_find? : ∀ (l : List Strategy) (seen : List String) (s : Strategy),
    s ∈ dedup_by_name seen l →
      s.name ∉ seen ∧ l.find? (fun x => x.name == s.name) = some s := by
  intro l
  induction l with
  | nil => intro seen s hs; simp [dedup_by_name] at hs
  | cons s0 rest ih =>
    intro seen s hs
    by_cases h0 : s0.name ∈ seen
    · simp only [dedup_by_name, if_pos h0] at hs
      obtain ⟨hns, hfind⟩ := ih seen s hs
      have hne : s.name ≠ s0.name := fun he => hns (he ▸ h0)
      refine ⟨hns, ?_⟩
      rw [List.find?_cons_of_neg, hfind]
      simpa using fun he => hne he.symm
    · simp only [dedup_by_name, if_neg h0] at hs
      rcases List.mem_cons.mp hs with rfl | hs
      · exact ⟨h0, by rw [List.find?_cons_of_pos] <;> simp⟩
      · obtain ⟨hns, hfind⟩ := ih (s0.name :: seen) s hs
        have hne : s.name ≠ s0.name := fun he => hns (by simp [he])
        have hns' : s.name ∉ seen := fun hc => hns (by simp [hc])
        refine ⟨hns', ?_⟩
        rw [List.find?_cons_of_neg, hfind]
        simpa using fun he => hne he.symm

/-- The names kept by the dedup loop are pairwise distinct and avoid the
`seen_names` accumulator. -/
theorem dedup_names_nodup : ∀ (l : List Strategy) (seen : List String),
    ((dedup_by_name seen l).map (fun s => s.name)).Nodup ∧
      ∀ n ∈ seen, n ∉ (dedup_by_name seen l).map (fun s => s.name) := by
  intro l
  induction l with
  | nil => intro seen; simp [dedup_by_name]
  | cons s0 rest ih =>
    intro seen
    by_cases h0 : s0.name ∈ seen
    · simpa [dedup_by_name, if_pos h0] using ih seen
    · obtain ⟨ihn, ihs⟩ := ih (s0.name :: seen)
      simp only [dedup_by_name, if_neg h0, List.map_cons, List.nodup_cons]
      refine ⟨⟨ihs s0.name (by simp), ihn⟩, ?_⟩
      intro n hn
      simp only [List.mem_cons, not_or]
      exact ⟨fun he => h0 (he ▸ hn), ihs n (by simp [hn])⟩

theorem mem_stage_unique_of_mem_output (strategies : List Strategy) (stage_key : String)
    (limit : Int) (stage_info : StageInfo) (h : findStage stage_key = some stage_info)
    (s : Strategy) (hs : s ∈ get_strategies_for_stage strategies stage_key limit) :
    s ∈ stage_unique strategies stage_info := by
  rw [get_strategies_eq_slice strategies stage_key limit stage_info h] at hs
  have h1 : s ∈ stage_sorted strategies stage_info :=
    (pySlice_sublist _ _).subset hs
  exact (sort_by_impact_perm _).subset h1

/-- C1: for every stage key and every limit, the returned sequence is
sorted by the `impact` field (missing treated as `""`) in descending
code-point lexicographic order: `impactGE` holds between any record and
any later record of the output. -/
theorem strategies_for_stage_sorted_desc (strategies : List Strategy)
    (stage_key : String) (limit : Int) :
    (get_strategies_for_stage strategies stage_key limit).Pairwise impactGE := by
  cases h : findStage stage_key with
  | none => simp [get_strategies_of_not_found strategies stage_key limit h]
  | some stage_info =>
    rw [get_strategies_eq_slice strategies stage_key limit stage_info h]
    exact List.Pairwise.sublist (pySlice_sublist _ _)
      (List.sorted_insertionSort impactGE (stage_unique strategies stage_info))

/-- C2: each name appears at most once in the result, and every returned
record is the *first* record with its name in the concatenated per-label
buckets (later records with a seen name are dropped). -/
theorem strategies_for_stage_dedup (strategies : List Strategy)
    (stage_key : String) (limit : Int) :
    ((get_strategies_for_stage strategies stage_key limit).map (fun s => s.name)).Nodup ∧
      ∀ stage_info, findStage stage_key = some stage_info →
        ∀ s ∈ get_strategies_for_stage strategies stage_key limit,
          (stage_collected strategies stage_info).find? (fun x => x.name == s.name)
            = some s := by
  constructor
  · cases h : findStage stage_key with
    | none => simp [get_strategies_of_not_found strategies stage_key limit h]
    | some stage_info =>
      rw [get_strategies_eq_slice strategies stage_key limit stage_info h]
      have hperm := (sort_by_impact_perm (stage_unique strategies stage_info)).map
        (fun s => s.name)
      have hnodup : ((stage_sorted strategies stage_info).map (fun s => s.name)).Nodup :=
        hperm.nodup_iff.mpr (dedup_names_nodup (stage_collected strategies stage_info) []).1
      exact List.Nodup.sublist
        (List.Sublist.map _ (pySlice_sublist (stage_sorted strategies stage_info) limit))
        hnodup
  · intro stage_info h s hs
    exact (dedup_mem_find? (stage_collected strategies stage_info) [] s
      (mem_stage_unique_of_mem_output strategies stage_key limit stage_info h s hs)).2

/-! ### Demonstration records used by the concrete witnesses -/

def demoX : Strategy := ⟨"X", "", ["Awareness"], none, some "B"⟩
def demoY : Strategy := ⟨"Y", "", ["Awareness", "Retention"], none, some "A"⟩
def demoZ : Strategy := ⟨"Z", "", ["Awareness"], none, some "A"⟩
def demoW : Strategy := ⟨"W", "", ["Awareness", "Awareness"], none, none⟩

def demoStrategies : List Strategy := [demoX, demoY, demoZ, demoW]

def demoAwareness : StageInfo :=
  ⟨"Осведомленность", "Привлечение внимания к продукту/бренду", ["Awareness"], 1⟩

/-- Witness for C2 at a concrete input: `demoW` is indexed twice under the
`awareness` stage (duplicate label) yet survives exactly once, as the
first occurrence in the concatenated buckets. -/
theorem strategies_for_stage_dedup_witness :
    ((get_strategies_for_stage demoStrategies "awareness" 10).map (fun s => s.name)).Nodup ∧
      (stage_collected demoStrategies demoAwareness).find?
        (fun x => x.name == demoW.name) = some demoW := by
  have h := strategies_for_stage_dedup demoStrategies "awareness" 10
  exact ⟨h.1, h.2 demoAwareness (by decide) demoW (by decide)⟩

/-- C4: limit `0` yields the empty sequence, a nonnegative limit bounds the
length of the result, and a limit at least the deduplicated bucket size
returns the whole sorted deduplicated bucket (truncation after sorting). -/
theorem strategies_for_stage_truncation (strategies : List Strategy)
    (stage_key : String) (limit : Int) (h0 : 0 ≤ limit) :
    get_strategies_for_stage strategies stage_key 0 = [] ∧
    ((get_strategies_for_stage strategies stage_key limit).length : Int) ≤ limit ∧
    ∀ stage_info, findStage stage_key = some stage_info →
      ((stage_unique strategies stage_info).length : Int) ≤ limit →
      get_strategies_for_stage strategies stage_key limit
        = stage_sorted strategies stage_info := by
  refine ⟨?_, ?_, ?_⟩
  · cases h : findStage stage_key with
    | none => exact get_strategies_of_not_found strategies stage_key 0 h
    | some stage_info =>
      rw [get_strategies_eq_slice strategies stage_key 0 stage_info h]
      simp [pySlice]
  · cases h : findStage stage_key with
    | none => simp [get_strategies_of_not_found strategies stage_key limit h]; omega
    | some stage_info =>
      rw [get_strategies_eq_slice strategies stage_key limit stage_info h]
      simp only [pySlice, if_pos h0]
      have := List.length_take limit.toNat (stage_sorted strategies stage_info)
      omega
  · intro stage_info h hlen
    rw [get_strategies_eq_slice strategies stage_key limit stage_info h]
    have hlen' : (stage_sorted strategies stage_info).length
        = (stage_unique strategies stage_info).length :=
      (sort_by_impact_perm (stage_unique strategies stage_info)).length_eq
    simp only [pySlice, if_pos h0]
    exact List.take_of_length_le (by omega)

/-- Witness for C4 at a concrete input. -/
theorem strategies_for_stage_truncation_witness :
    get_strategies_for_stage demoStrategies "awareness" 0 = [] ∧
    ((get_strategies_for_stage demoStrategies "awareness" 10).length : Int) ≤ 10 ∧
    get_strategies_for_stage demoStrategies "awareness" 10
      = stage_sorted demoStrategies demoAwareness := by
  have h := strategies_for_stage_truncation demoStrategies "awareness" 10 (by decide)
  exact ⟨h.1, h.2.1, h.2.2 demoAwareness (by decide) (by decide)⟩

/-- C5: an unknown stage key yields an empty sequence from
`get_strategies_for_stage`, and `get_funnel_recommendations` produces the
same report as if the unknown keys had been removed from the request. -/
theorem unknown_stage_tolerant (strategies : List Strategy) (stage_key : String)
    (limit : Int) (h : findStage stage_key = none) (sel : List String) (k : Int) :
    get_strategies_for_stage strategies stage_key limit = [] ∧
    get_funnel_recommendations strategies (some sel) k
      = get_funnel_recommendations strategies
          (some (sel.filter (fun s => (findStage s).isSome))) k := by
  refine ⟨get_strategies_of_not_found strategies stage_key limit h, ?_⟩
  simp [get_funnel_recommendations, List.filter_filter]

/-- Witness for C5 at a concrete input: `"not_a_stage"` and `"bogus"` are
not catalog keys. -/
theorem unknown_stage_tolerant_witness :
    get_strategies_for_stage demoStrategies "not_a_stage" 5 = [] ∧
    get_funnel_recommendations demoStrategies (some ["referral", "bogus"]) 5
      = get_funnel_recommendations demoStrategies
          (some (["referral", "bogus"].filter (fun s => (findStage s).isSome))) 5 :=
  unknown_stage_tolerant demoStrategies "not_a_stage" 5 (by decide) ["referral", "bogus"] 5

/-- C6: the code does not fail fast on a negative limit.  At the concrete
failing input below (`limit = -1` for stage `awareness`), the slice
`unique_strategies[:limit]` silently returns a truncated list — the
sorted bucket `[demoX, demoY, demoZ, demoW]` minus its last entry —
instead of raising a validation error. -/
theorem negative_limit_not_rejected :
    get_strategies_for_stage demoStrategies "awareness" (-1)
      = [demoX, demoY, demoZ] := by decide

/-- C7: every record returned for a catalog stage carries at least one
label of that stage (hence a record with an empty label set never
appears). -/
theorem strategies_for_stage_labels_intersect (strategies : List Strategy)
    (stage_key : String) (limit : Int) (stage_info : StageInfo)
    (h : findStage stage_key = some stage_info) :
    ∀ s ∈ get_strategies_for_stage strategies stage_key limit,
      ∃ t, t ∈ s.types ∧ t ∈ stage_info.types := by
  intro s hs
  have h1 : s ∈ stage_unique strategies stage_info :=
    mem_stage_unique_of_mem_output strategies stage_key limit stage_info h s hs
  have h2 : s ∈ stage_collected strategies stage_info :=
    List.mem_of_find?_eq_some
      (dedup_mem_find? (stage_collected strategies stage_info) [] s h1).2
  simp only [stage_collected, List.mem_flatten, List.mem_map] at h2
  obtain ⟨bucket, ⟨t, ht, rfl⟩, hsb⟩ := h2
  refine ⟨t, ?_, ht⟩
  simp only [strategies_by_type, List.mem_flatten, List.mem_map] at hsb
  obtain ⟨piece, ⟨s0, _, rfl⟩, hsp⟩ := hsb
  obtain ⟨x, hx, rfl⟩ := List.mem_map.mp hsp
  obtain ⟨hxt, hxe⟩ := List.mem_filter.mp hx
  exact (beq_iff_eq.mp hxe) ▸ hxt

/-- Witness for C7 at a concrete input. -/
theorem strategies_for_stage_labels_intersect_witness :
    ∃ t, t ∈ demoY.types ∧ t ∈ demoAwareness.types :=
  strategies_for_stage_labels_intersect demoStrategies "awareness" 10 demoAwareness
    (by decide) demoY (by decide)

/-- C8: the report builder is a pure function of the record collection,
the requested stage list and the per-stage limit: identical inputs give
identical reports. -/
theorem funnel_recommendations_deterministic (strategies₁ strategies₂ : List Strategy)
    (sel₁ sel₂ : Option (List String)) (k₁ k₂ : Int)
    (h₁ : strategies₁ = strategies₂) (h₂ : sel₁ = sel₂) (h₃ : k₁ = k₂) :
    get_funnel_recommendations strategies₁ sel₁ k₁
      = get_funnel_recommendations strategies₂ sel₂ k₂ := by
  subst h₁; subst h₂; subst h₃; rfl

/-- Witness for C8 at a concrete input. -/
theorem funnel_recommendations_deterministic_witness :
    get_funnel_recommendations demoStrategies (some ["awareness", "retention"]) 5
      = get_funnel_recommendations demoStrategies (some ["awareness", "retention"]) 5 :=
  funnel_recommendations_deterministic demoStrategies demoStrategies
    (some ["awareness", "retention"]) (some ["awareness", "retention"]) 5 5 rfl rfl rfl

/-- C9: a negative limit is accepted and behaves as the Python slice
`lst[:limit]`: the sorted deduplicated bucket loses its last
`min |limit| (bucket size)` entries, and a sufficiently negative limit
empties the result. -/
theorem negative_limit_slice_semantics (strategies : List Strategy)
    (stage_key : String) (limit : Int) (h : limit < 0) (stage_info : StageInfo)
    (hk : findStage stage_key = some stage_info) :
    get_strategies_for_stage strategies stage_key limit
      = (stage_sorted strategies stage_info).take
          ((stage_sorted strategies stage_info).length
            - min (-limit).toNat (stage_sorted strategies stage_info).length) ∧
    (((stage_sorted strategies stage_info).length : Int) ≤ -limit →
      get_strategies_for_stage strategies stage_key limit = []) := by
  rw [get_strategies_eq_slice strategies stage_key limit stage_info hk]
  have hneg : ¬ 0 ≤ limit := by omega
  constructor
  · simp only [pySlice, if_neg hneg]
    congr 1
    omega
  · intro h2
    simp only [pySlice, if_neg hneg]
    have hz : (stage_sorted strategies stage_info).length - (-limit).toNat = 0 := by
      omega
    simp [hz]

/-- Witness for C9 at a concrete input: `limit = -5` exceeds the bucket
size `4`, so the result is empty. -/
theorem negative_limit_slice_semantics_witness :
    get_strategies_for_stage demoStrategies "awareness" (-5)
      = (stage_sorted demoStrategies demoAwareness).take
          ((stage_sorted demoStrategies demoAwareness).length
            - min ((-(-5 : Int)).toNat) (stage_sorted demoStrategies demoAwareness).length) ∧
    get_strategies_for_stage demoStrategies "awareness" (-5) = [] := by
  have h := negative_limit_slice_semantics demoStrategies "awareness" (-5) (by decide)
    demoAwareness (by decide)
  exact ⟨h.1, h.2 (by decide)⟩

/-! ### Stability of the impact sort -/

theorem impactGE_of_key_eq {a b : Strategy} (h : impactKey b = impactKey a) :
    impactGE a b := by
  unfold impactGE pyLe
  rw [h]
  exact charListLe_refl _

theorem filter_orderedInsert_of_key (v : String) (a : Strategy) :
    ∀ l : List Strategy, impactKey a = v →
      (List.orderedInsert impactGE a l).filter (fun s => impactKey s == v)
        = a :: l.filter (fun s => impactKey s == v)
  | [], h => by simp [List.orderedInsert, h]
  | b :: l, h => by
    by_cases hab : impactGE a b
    · simp [List.orderedInsert, hab, List.filter_cons, h]
    · have hbv : ¬ impactKey b = v := fun hb =>
        hab (impactGE_of_key_eq (hb.trans h.symm))
      simp only [List.orderedInsert, if_neg hab, List.filter_cons,
        beq_iff_eq, hbv, ite_false]
      rw [filter_orderedInsert_of_key v a l h]

theorem filter_orderedInsert_of_ne (v : String) (a : Strategy) :
    ∀ l : List Strategy, impactKey a ≠ v →
      (List.orderedInsert impactGE a l).filter (fun s => impactKey s == v)
        = l.filter (fun s => impactKey s == v)
  | [], h => by simp [List.orderedInsert, h]
  | b :: l, h => by
    by_cases hab : impactGE a b
    · simp [List.orderedInsert, hab, List.filter_cons, h]
    · simp only [List.orderedInsert, if_neg hab, List.filter_cons]
      rw [filter_orderedInsert_of_ne v a l h]

/-- The modelled Python sort is stable: records with any fixed impact key
`v` appear in the sorted list exactly in their pre-sort order. -/
theorem filter_sort_by_impact (v : String) :
    ∀ l : List Strategy,
      (sort_by_impact l).filter (fun s => impactKey s == v)
        = l.filter (fun s => impactKey s == v)
  | [] => rfl
  | a :: l => by
    by_cases h : impactKey a = v
    · show (List.orderedInsert impactGE a (sort_by_impact l)).filter _ = _
      rw [filter_orderedInsert_of_key v a (sort_by_impact l) h,
        filter_sort_by_impact v l]
      simp [List.filter_cons, h]
    · show (List.orderedInsert impactGE a (sort_by_impact l)).filter _ = _
      rw [filter_orderedInsert_of_ne v a (sort_by_impact l) h,
        filter_sort_by_impact v l]
      simp [List.filter_cons, h]

/-- C10: ties are kept in pre-sort order.  For any impact key `v`, the
`v`-keyed records of the output occur in the order of the deduplicated
bucket (a sublist after truncation, exactly that order without
truncation). -/
theorem impact_sort_stable (strategies : List Strategy) (stage_key : String)
    (limit : Int) (stage_info : StageInfo)
    (hk : findStage stage_key = some stage_info) (v : String) :
    List.Sublist
      ((get_strategies_for_stage strategies stage_key limit).filter
        (fun s => impactKey s == v))
      ((stage_unique strategies stage_info).filter (fun s => impactKey s == v)) ∧
    (((stage_sorted strategies stage_info).length : Int) ≤ limit →
      (get_strategies_for_stage strategies stage_key limit).filter
          (fun s => impactKey s == v)
        = (stage_unique strategies stage_info).filter (fun s => impactKey s == v)) := by
  rw [get_strategies_eq_slice strategies stage_key limit stage_info hk]
  constructor
  · have h1 := List.Sublist.filter (fun s => impactKey s == v)
      (pySlice_sublist (stage_sorted strategies stage_info) limit)
    simp only [stage_sorted] at h1
    rwa [filter_sort_by_impact v (stage_unique strategies stage_info)] at h1
  · intro h2
    have h0 : 0 ≤ limit := le_trans (by omega) h2
    have hfull : pySlice (stage_sorted strategies stage_info) limit
        = stage_sorted strategies stage_info := by
      simp only [pySlice, if_pos h0]
      exact List.take_of_length_le (by omega)
    rw [hfull]
    exact filter_sort_by_impact v (stage_unique strategies stage_info)

/-- Witness for C10 at a concrete input: `demoY` and `demoZ` share impact
key `"A"` and keep their bucket order in the output. -/
theorem impact_sort_stable_witness :
    List.Sublist
      ((get_strategies_for_stage demoStrategies "awareness" 10).filter
        (fun s => impactKey s == "A"))
      ((stage_unique demoStrategies demoAwareness).filter (fun s => impactKey s == "A")) ∧
    (get_strategies_for_stage demoStrategies "awareness" 10).filter
        (fun s => impactKey s == "A")
      = (stage_unique demoStrategies demoAwareness).filter (fun s => impactKey s == "A") := by
  have h := impact_sort_stable demoStrategies "awareness" 10 demoAwareness (by decide) "A"
  exact ⟨h.1, h.2 (by decide)⟩

/-! ### Ordering of the report entries (C3) -/

theorem dictInsert_keys (d : List (String × StageRecommendation)) (k : String)
    (v : StageRecommendation) :
    (dictInsert d k v).map Prod.fst
      = if d.any (fun p => p.1 == k) then d.map Prod.fst
        else d.map Prod.fst ++ [k] := by
  unfold dictInsert
  split
  · rw [List.map_map]
    apply List.map_congr_left
    intro p _
    by_cases hp : p.1 == k
    · simp only [Function.comp_apply, if_pos hp]
      exact (beq_iff_eq.mp hp).symm
    · have hp' : ¬ p.1 = k := by simpa using hp
      simp [Function.comp_apply, hp']
  · simp

theorem fold_report_pairwise (strategies : List Strategy) (n : Int)
    (r : String → String → Prop) :
    ∀ (ks : List String) (acc : List (String × StageRecommendation)),
      (acc.map Prod.fst ++ ks).Pairwise r →
      ((ks.foldl (report_step strategies n) acc).map Prod.fst).Pairwise r := by
  intro ks
  induction ks with
  | nil => intro acc h; simpa using h
  | cons k ks ih =>
    intro acc h
    rw [List.foldl_cons]
    apply ih
    cases hf : findStage k with
    | none =>
      rw [report_step, hf]
      exact List.Pairwise.sublist
        (List.Sublist.append_left (List.sublist_cons_self k ks) (acc.map Prod.fst)) h
    | some stage_info =>
      rw [report_step, hf]
      by_cases hany : acc.any (fun p => p.1 == k)
      · rw [dictInsert_keys, if_pos hany]
        exact List.Pairwise.sublist
          (List.Sublist.append_left (List.sublist_cons_self k ks) (acc.map Prod.fst)) h
      · rw [dictInsert_keys, if_neg hany, List.append_assoc, List.singleton_append]
        exact h

theorem fold_report_nodup (strategies : List Strategy) (n : Int) :
    ∀ (ks : List String) (acc : List (String × StageRecommendation)),
      (acc.map Prod.fst).Nodup →
      ((ks.foldl (report_step strategies n) acc).map Prod.fst).Nodup := by
  intro ks
  induction ks with
  | nil => intro acc h; simpa using h
  | cons k ks ih =>
    intro acc h
    rw [List.foldl_cons]
    apply ih
    cases hf : findStage k with
    | none => rw [report_step, hf]; exact h
    | some stage_info =>
      rw [report_step, hf]
      by_cases hany : acc.any (fun p => p.1 == k)
      · rw [dictInsert_keys, if_pos hany]; exact h
      · rw [dictInsert_keys, if_neg hany]
        refine List.Nodup.append h (List.nodup_singleton k) ?_
        intro x hx hxk
        rw [List.mem_singleton] at hxk
        subst hxk
        obtain ⟨p, hp, hpk⟩ := List.mem_map.mp hx
        have := List.any_eq_false.mp (Bool.of_not_eq_true hany) p hp
        simp [hpk] at this
  
theorem fold_report_mem (strategies : List Strategy) (n : Int) :
    ∀ (ks : List String) (acc : List (String × StageRecommendation)),
      (∀ x ∈ acc.map Prod.fst, (findStage x).isSome) →
      ∀ x ∈ (ks.foldl (report_step strategies n) acc).map Prod.fst,
        (findStage x).isSome := by
  intro ks
  induction ks with
  | nil => intro acc h; simpa using h
  | cons k ks ih =>
    intro acc h
    rw [List.foldl_cons]
    apply ih
    cases hf : findStage k with
    | none => rw [report_step, hf]; exact h
    | some stage_info =>
      rw [report_step, hf]
      by_cases hany : acc.any (fun p => p.1 == k)
      · rw [dictInsert_keys, if_pos hany]; exact h
      · rw [dictInsert_keys, if_neg hany]
        intro x hx
        rcases List.mem_append.mp hx with hx | hx
        · exact h x hx
        · rw [List.mem_singleton] at hx
          subst hx
          rw [hf]
          rfl

theorem findStage_isSome_cases (x : String) (h : (findStage x).isSome) :
    x = "awareness" ∨ x = "acquisition" ∨ x = "activation" ∨ x = "revenue" ∨
      x = "retention" ∨ x = "referral" := by
  cases hf : FUNNEL_STAGES.find? (fun p => p.1 == x) with
  | none => simp [findStage, hf] at h
  | some y =>
    have hy := List.mem_of_find?_eq_some hf
    have hx : y.1 = x := by simpa using List.find?_some hf
    simp only [FUNNEL_STAGES, List.mem_cons, List.not_mem_nil, or_false] at hy
    rcases hy with rfl | rfl | rfl | rfl | rfl | rfl <;> simp [← hx]

theorem fold_report_keys_ascending (strategies : List Strategy) (n : Int)
    (ks : List String) (hsorted : ks.Pairwise stageOrderLE) :
    ((ks.foldl (report_step strategies n) []).map Prod.fst).Pairwise
      (fun a b => stageOrder a < stageOrder b) := by
  have hle : ((ks.foldl (report_step strategies n) []).map Prod.fst).Pairwise
      stageOrderLE :=
    fold_report_pairwise strategies n stageOrderLE ks [] (by simpa using hsorted)
  have hnd : ((ks.foldl (report_step strategies n) []).map Prod.fst).Nodup :=
    fold_report_nodup strategies n ks [] (by simp)
  have hmem := fold_report_mem strategies n ks [] (by simp)
  refine List.Pairwise.imp_of_mem ?_ (List.Pairwise.and hle hnd)
  intro a b ha hb hab
  obtain ⟨h1, h2⟩ := hab
  rcases findStage_isSome_cases a (hmem a ha) with rfl | rfl | rfl | rfl | rfl | rfl <;>
    rcases findStage_isSome_cases b (hmem b hb) with rfl | rfl | rfl | rfl | rfl | rfl <;>
      revert h1 h2 <;> decide

/-- C3: the entries of the report are keyed in strictly ascending catalog
`order`, whatever order the caller requested the stages in. -/
theorem report_stage_order_ascending (strategies : List Strategy)
    (selected_stages : Option (List String)) (strategies_per_stage : Int) :
    ((get_funnel_recommendations strategies selected_stages strategies_per_stage).map
        Prod.fst).Pairwise
      (fun a b => stageOrder a < stageOrder b) := by
  simp only [get_funnel_recommendations]
  exact fold_report_keys_ascending strategies strategies_per_stage _
    (List.sorted_insertionSort stageOrderLE _)
